import Mathlib

/-!
# Verification of the go-xml serializer

Shallow embedding of the go-xml marshaling pipeline (field processing,
tree builder, encoder, namespace injection, compression envelope) and
proofs of the specification claims about it.

Strings are modelled as `List Char` (one entry per rune, matching the
`for _, c := range s` iteration of the Go source).
-/

namespace GoXml

/-- Newline character, written via its code point. -/
def nlChar : Char := Char.ofNat 10

/-- Tab character. -/
def tabChar : Char := Char.ofNat 9

/-- Double-quote character. -/
def quoteChar : Char := Char.ofNat 34

/-- Apostrophe character. -/
def aposChar : Char := Char.ofNat 39

/-! ## escapeString (src/utils.go lines 30-50)

`escapeString` walks the runes of the input and replaces the five
reserved characters by their entities, passing every other rune through
unchanged. -/

/-- The replacement performed for a single rune by the `switch` inside
`escapeString`. -/
def escChar (c : Char) : List Char :=
  if c = '&' then "&amp;".data
  else if c = '<' then "&lt;".data
  else if c = '>' then "&gt;".data
  else if c = quoteChar then "&quot;".data
  else if c = aposChar then "&apos;".data
  else [c]

/-- `escapeString` from src/utils.go: apply `escChar` to every rune and
concatenate the results. -/
def escapeString (s : List Char) : List Char :=
  (s.map escChar).flatten

/-- Decoder for the escaped form: undoes the five entity replacements.
Used to establish injectivity of `escapeString`. -/
def unescape : List Char → Option (List Char)
  | [] => some []
  | c :: rest =>
    if c = '&' then
      match rest with
      | 'a' :: 'm' :: 'p' :: ';' :: r => (unescape r).map (fun t => '&' :: t)
      | 'l' :: 't' :: ';' :: r => (unescape r).map (fun t => '<' :: t)
      | 'g' :: 't' :: ';' :: r => (unescape r).map (fun t => '>' :: t)
      | 'q' :: 'u' :: 'o' :: 't' :: ';' :: r =>
          (unescape r).map (fun t => quoteChar :: t)
      | 'a' :: 'p' :: 'o' :: 's' :: ';' :: r =>
          (unescape r).map (fun t => aposChar :: t)
      | _ => none
    else (unescape rest).map (fun t => c :: t)

theorem escapeString_nil : escapeString [] = [] := rfl

theorem escapeString_cons (c : Char) (s : List Char) :
    escapeString (c :: s) = escChar c ++ escapeString s := by
  simp [escapeString]

/-- `unescape` is a left inverse of `escapeString`. -/
theorem unescape_escapeString (s : List Char) :
    unescape (escapeString s) = some s := by
  induction s with
  | nil => rfl
  | cons c s ih =>
    rw [escapeString_cons]
    by_cases h1 : c = '&'
    · subst h1; simp [escChar, unescape, ih]
    · by_cases h2 : c = '<'
      · subst h2; simp [escChar, unescape, ih]
      · by_cases h3 : c = '>'
        · subst h3; simp [escChar, unescape, ih]
        · by_cases h4 : c = quoteChar
          · subst h4; simp [escChar, unescape, ih]
          · by_cases h5 : c = aposChar
            · subst h5; simp [escChar, unescape, ih]
            · rw [escChar, if_neg h1, if_neg h2, if_neg h3, if_neg h4, if_neg h5]
              rw [unescape.eq_def]
              simp [h1, ih]

/-- `escapeString` is injective. -/
theorem escapeString_injective : Function.Injective escapeString := by
  intro s1 s2 h
  have h1 := unescape_escapeString s1
  have h2 := unescape_escapeString s2
  rw [h] at h1
  rw [h1] at h2
  exact Option.some.inj h2

/-! ## Node model (src/nodes.go)

`ElementNode` carries a name, an ordered attribute list, ordered children
and an explicit self-close flag; `TextNode` carries raw content.  The
`sync.Pool` recycling is invisible to the functional semantics: an
acquired node is always `Reset` before use, so acquisition yields a fresh
empty node. -/

/-- An attribute: ordered `(name, value)` pair (src/nodes.go `Attribute`). -/
structure Attr where
  name : List Char
  value : List Char
deriving DecidableEq

/-- The node sum type: `ElementNode` / `TextNode` (src/nodes.go). -/
inductive Node where
  | element (name : List Char) (attrs : List Attr) (children : List Node)
      (selfClose : Bool)
  | text (content : List Char)

/-- `HasAttribute` from src/nodes.go: linear scan of the attribute list
by name. -/
def hasAttribute (attrs : List Attr) (nm : List Char) : Bool :=
  attrs.any (fun a => a.name = nm)

/-- `insertAttributeAtBeginning` from src/utils.go: allocate a list one
longer, put the new attribute in slot 0 and copy the rest after it —
i.e. cons. -/
def insertAttributeAtBeginning (attrs : List Attr) (attr : Attr) : List Attr :=
  attr :: attrs

/-! ## Go value model

The reflected value shapes the tree builder dispatches on
(`reflect.Value.Kind()` in src/unnamed/part_002): pointers/interfaces
(`vPtr`, `none` = nil; a non-nil interface holding a value behaves like a
pointer for the dereference loop), structs with their ordered field list,
slices/arrays, and the scalar kinds.  `GoField` records what the builder
reads off a `reflect.StructField`: the Go identifier, the raw `xml` tag
string, the `Anonymous` flag, and whether the field's static type is
`encoding/xml.Name` (in which case `xmlName` holds the value's `Local`
component). -/

mutual
inductive GoValue where
  | vInt (n : Int)
  | vString (s : List Char)
  | vBool (b : Bool)
  | vFloat (q : ℚ)
  | vPtr (p : Option GoValue)
  | vStruct (fields : List GoField)
  | vSlice (items : List GoValue)

inductive GoField where
  | mk (name : List Char) (tag : List Char) (anonymous : Bool)
      (xmlName : Option (List Char)) (value : GoValue)
end

/-- The Go field identifier (`StructField.Name`). -/
def GoField.name : GoField → List Char
  | .mk n _ _ _ _ => n

/-- The raw `xml` struct-tag string (`field.Tag.Get("xml")`; empty when
the field carries no tag). -/
def GoField.tag : GoField → List Char
  | .mk _ t _ _ _ => t

/-- The `StructField.Anonymous` flag. -/
def GoField.anonymous : GoField → Bool
  | .mk _ _ a _ _ => a

/-- `some local` when the field's static type is `encoding/xml.Name`. -/
def GoField.xmlName : GoField → Option (List Char)
  | .mk _ _ _ x _ => x

/-- The field's value. -/
def GoField.value : GoField → GoValue
  | .mk _ _ _ _ v => v

/-! ## Scalar helpers (src/utils.go) -/

/-- `contains` from src/utils.go: linear membership scan over the tag
option strings. -/
def contains (options : List (List Char)) (opt : List Char) : Bool :=
  options.any (fun o => o = opt)

/-- `isEmptyValue` from src/utils.go lines 61-77: zero/empty test per
reflected kind.  Structs (the `default` of the Go switch) are never
empty. -/
def isEmptyValue : GoValue → Bool
  | .vSlice items => items.length = 0
  | .vString s => s.length = 0
  | .vBool b => !b
  | .vInt n => n = 0
  | .vFloat q => q = 0
  | .vPtr p => p.isNone
  | .vStruct _ => false

/-- One decimal digit character: `48 + n % 10`. -/
def digitChar (n : Nat) : Char := Char.ofNat (48 + n % 10)

/-- Decimal digits of a positive number, least significant first. -/
def natToRevDigits : Nat → List Char
  | 0 => []
  | n + 1 => digitChar ((n + 1) % 10) :: natToRevDigits ((n + 1) / 10)
decreasing_by exact Nat.div_lt_self (Nat.succ_pos n) (by norm_num)

/-- Plain decimal rendering of a natural number (`%d`). -/
def natDecimal (n : Nat) : List Char :=
  if n = 0 then ['0'] else (natToRevDigits n).reverse

/-- Plain decimal rendering of an integer (`%d`). -/
def intDecimal (i : Int) : List Char :=
  (if i < 0 then ['-'] else []) ++ natDecimal i.natAbs

/-- Floor of a rational. -/
def ratFloor (q : ℚ) : Int := Int.fdiv q.num q.den

/-- Round to the nearest integer, ties to even (the correct rounding Go's
`strconv` applies when formatting with a fixed precision). -/
def fmtRound (q : ℚ) : Int :=
  let fl := ratFloor q
  let frac := q - (fl : ℚ)
  if frac < 1 / 2 then fl
  else if 1 / 2 < frac then fl + 1
  else if fl % 2 = 0 then fl else fl + 1

/-- Modelled from the spec: `fmt.Sprintf("%.2f", ...)` — the formatting
routine lives in Go's standard library, outside this repository; §4.3
states floats render as fixed-point decimal with exactly two fractional
digits, never scientific, never trimmed.  The float value is modelled as
a rational; the value is scaled by 100, rounded to the nearest integer
and printed as `integer-part '.' two-digits`. -/
def fmtFixed2 (q : ℚ) : List Char :=
  let n := fmtRound (q * 100)
  let m := n.natAbs
  (if n < 0 then ['-'] else []) ++
    natDecimal (m / 100) ++ ('.' :: [digitChar (m / 10), digitChar m])

mutual
/-- `valueToString` from src/utils.go lines 79-102: dereference pointers
(nil renders as the empty string), then format per kind: floats via
`%.2f`, strings verbatim, booleans as lowercase `true`/`false`, integers
as plain decimal.  The `default` branch (`fmt.Sprintf("%v", ...)`,
reached for structs and slices) is modelled from the spec's "generic
default textual representation": fmt's default notation `{..}` / `[..]`
with space-separated components. -/
def valueToString : GoValue → List Char
  | .vPtr none => []
  | .vPtr (some w) => valueToString w
  | .vFloat q => fmtFixed2 q
  | .vString s => s
  | .vBool b => if b then "true".data else "false".data
  | .vInt n => intDecimal n
  | .vStruct fields => '{' :: fmtVFields fields ++ ['}']
  | .vSlice items => '[' :: fmtVSeq items ++ [']']

/-- Space-separated generic rendering of a sequence of values (the
recursive part of fmt's default notation). -/
def fmtVSeq : List GoValue → List Char
  | [] => []
  | [x] => valueToString x
  | x :: xs => valueToString x ++ ' ' :: fmtVSeq xs

/-- Space-separated generic rendering of a struct's field values. -/
def fmtVFields : List GoField → List Char
  | [] => []
  | [.mk _ _ _ _ v] => valueToString v
  | .mk _ _ _ _ v :: fs => valueToString v ++ ' ' :: fmtVFields fs
end

/-! ## Tree builder (src/unnamed/part_002, the feature-complete variant)

The Go code mutates an `*ElementNode` while walking a struct's fields;
the embedding threads the element's mutable parts through the fold. -/

/-- The mutable parts of the element under construction (the builder of
this variant never sets `SelfClose`; `acquireElementNode` hands out a
reset node, so it starts false and stays false). -/
structure Elem where
  name : List Char
  attrs : List Attr
  children : List Node

/-- The finished element. -/
def Elem.toNode (e : Elem) : Node := .element e.name e.attrs e.children false

/-- `strings.Split` specialised to a one-character separator: splitting
the empty string yields one empty field; each separator occurrence starts
a new field. -/
def splitOnChar (sep : Char) : List Char → List (List Char)
  | [] => [[]]
  | c :: rest =>
    match splitOnChar sep rest with
    | [] => [[c]]
    | h :: t => if c = sep then [] :: h :: t else (c :: h) :: t

/-- The wrapper chain `processChildTags` synthesises for a `>`-joined tag:
one single-child element per hierarchy segment except the last, the
innermost receiving the content nodes. -/
def wrapChain : List (List Char) → List Node → List Node
  | [], content => content
  | t :: ts, content => [.element t [] (wrapChain ts content) false]

/-- `handleSimpleNode` from src/unnamed/part_002 lines 223-232: wrap the
stringified scalar in an element named by the current tag (which is the
empty string when the tag path was exhausted); this function cannot
fail. -/
def handleSimpleNode (v : GoValue) (currentTag : List Char) : Node :=
  .element currentTag [] [.text (valueToString v)] false

mutual
/-- `structToNode` from src/unnamed/part_002 lines 93-116: dereference
pointers/interfaces (nil yields no node), pop the head of the tag
hierarchy as the current tag — defaulting to the empty string when the
hierarchy is empty, this variant has no missing-tag failure — and
dispatch on the value's kind. -/
def structToNode (v : GoValue) (tagHierarchy : List (List Char)) :
    Except (List Char) (Option Node) :=
  match v with
  | .vPtr none => .ok none
  | .vPtr (some w) => structToNode w tagHierarchy
  | .vStruct fields => handleStructNode fields (tagHierarchy.headD [])
  | .vSlice items =>
      handleSliceNode items (tagHierarchy.headD []) tagHierarchy.tail
  | v => .ok (some (handleSimpleNode v (tagHierarchy.headD [])))
termination_by 8 * sizeOf v
decreasing_by all_goals first | (simp; omega) | simp

/-- `handleStructNode` from src/unnamed/part_002 lines 118-165: start
from a fresh element named by the current tag and process each field of
the cached metadata in declaration order. -/
def handleStructNode (fields : List GoField) (currentTag : List Char) :
    Except (List Char) (Option Node) :=
  match buildStructFields ⟨currentTag, [], []⟩ fields with
  | .error err => .error err
  | .ok e => .ok (some e.toNode)
termination_by 8 * sizeOf fields + 6
decreasing_by all_goals first | (simp; omega) | simp

/-- The field loop of `handleStructNode`: process each field in
declaration order via `fieldStep`, aborting on the first error. -/
def buildStructFields (e : Elem) (fields : List GoField) :
    Except (List Char) Elem :=
  match fields with
  | [] => .ok e
  | f :: fs =>
    match fieldStep e f with
    | .error err => .error err
    | .ok e2 => buildStructFields e2 fs
termination_by 8 * sizeOf fields + 5
decreasing_by all_goals first | (simp; omega) | simp

/-- The body of the field loop of `handleStructNode` for one field:
anonymous fields are flattened via `processAnonymousField`; a tag of
exactly `-` excludes the field; an `xml.Name`-typed field overrides the
element name when its `Local` part is non-empty and produces no child;
every other field has its tag split on `,` into a name (defaulting to the
Go field identifier) and options, and goes through `processField`. -/
def fieldStep (e : Elem) : GoField → Except (List Char) Elem
  | .mk fname ftag fanon fxml fval =>
    if fanon then processAnonymousField e fval
    else if ftag = "-".data then .ok e
    else
      match fxml with
      | some loc => .ok (if loc ≠ [] then { e with name := loc } else e)
      | none =>
        processField e fval
          (if (splitOnChar ',' ftag).headD [] = [] then fname
           else (splitOnChar ',' ftag).headD [])
          (splitOnChar ',' ftag).tail
termination_by f => 8 * sizeOf f
decreasing_by all_goals first | (simp; omega) | simp

/-- `processAnonymousField` from src/unnamed/part_002 lines 167-177:
build the embedded value with an empty tag path and splice the resulting
element's attributes and children into the enclosing element; a nil or
non-element result contributes nothing. -/
def processAnonymousField (e : Elem) (v : GoValue) :
    Except (List Char) Elem :=
  match structToNode v [] with
  | .error err => .error err
  | .ok (some (.element _ a c _)) =>
      .ok { e with attrs := e.attrs ++ a, children := e.children ++ c }
  | .ok _ => .ok e
termination_by 8 * sizeOf v + 2
decreasing_by all_goals first | (simp; omega) | simp

/-- `processField` from src/unnamed/part_002 lines 234-256: an
`attr`-tagged field is appended to the attribute list (note: before any
`omitempty` consideration); otherwise an `omitempty` field whose value is
empty is skipped; otherwise the (possibly `>`-joined) tag is expanded and
the field content is attached via `processChildTags`. -/
def processField (e : Elem) (v : GoValue) (tagName : List Char)
    (tagOptions : List (List Char)) : Except (List Char) Elem :=
  if contains tagOptions "attr".data then
    .ok { e with attrs := e.attrs ++ [⟨tagName, valueToString v⟩] }
  else if contains tagOptions "omitempty".data && isEmptyValue v then
    .ok e
  else
    processChildTags e v
      (if tagName.contains '>' then splitOnChar '>' tagName else [tagName])
termination_by 8 * sizeOf v + 4
decreasing_by all_goals first | (simp; omega) | simp

/-- `processChildTags` from src/unnamed/part_002 lines 258-292: create
one wrapper element per hierarchy segment except the last, then attach
the content nodes (one per slice item, or a single node otherwise) built
under the last segment to the innermost wrapper. -/
def processChildTags (e : Elem) (v : GoValue) (childTags : List (List Char)) :
    Except (List Char) Elem :=
  match buildFieldContent v (childTags.getLastD []) with
  | .error err => .error err
  | .ok content =>
      .ok { e with children := e.children ++ wrapChain childTags.dropLast content }
termination_by 8 * sizeOf v + 3
decreasing_by all_goals first | (simp; omega) | simp

/-- The content loop at the tail of `processChildTags`: a slice/array
field yields one node per item built under the last tag (nil results
skipped); any other value yields its single node (or none when nil). -/
def buildFieldContent (v : GoValue) (lastTag : List Char) :
    Except (List Char) (List Node) :=
  match v with
  | .vSlice items => buildSliceItems items [lastTag]
  | v =>
    match structToNode v [lastTag] with
    | .error err => .error err
    | .ok none => .ok []
    | .ok (some n) => .ok [n]
termination_by 8 * sizeOf v + 2
decreasing_by all_goals first | (simp; omega) | simp

/-- The per-item collection of `handleSliceNode` (src/unnamed/part_002
lines 179-221).  The Go code builds the items in one goroutine each,
writing results into the index-addressed `childNodes` array and then
appending the non-nil entries in index order, so its successful result is
exactly this sequential index-order collection (the order-independence of
the parallel strategy is proved separately, see the sequence claims); no
error is ever produced by this variant's item builds. -/
def buildSliceItems (items : List GoValue) (remainingTags : List (List Char)) :
    Except (List Char) (List Node) :=
  match items with
  | [] => .ok []
  | x :: xs =>
    match structToNode x remainingTags with
    | .error err => .error err
    | .ok none => buildSliceItems xs remainingTags
    | .ok (some n) =>
      match buildSliceItems xs remainingTags with
      | .error err => .error err
      | .ok ns => .ok (n :: ns)
termination_by 8 * sizeOf items + 1
decreasing_by all_goals first | (simp; omega) | simp

/-- `handleSliceNode` from src/unnamed/part_002 lines 179-221: an element
named by the current tag whose children are the items built with the
remaining tag path. -/
def handleSliceNode (items : List GoValue) (currentTag : List Char)
    (remainingTags : List (List Char)) : Except (List Char) (Option Node) :=
  match buildSliceItems items remainingTags with
  | .error err => .error err
  | .ok children => .ok (some (.element currentTag [] children false))
termination_by 8 * sizeOf items + 6
decreasing_by all_goals first | (simp; omega) | simp
end

/-! ## Encoder (src/encoder.go, second variant, lines 137-238)

The encoder walks the tree depth-first writing to a `bytes.Buffer`
(which never fails), so the embedding is a pure rendering function.
Node release back to the pool has no observable effect on the output. -/

/-- `hasNonEmptyChildren` from src/utils.go lines 16-28: true as soon as
some child is an element, or is a text node with non-empty content. -/
def hasNonEmptyChildren (children : List Node) : Bool :=
  children.any (fun c =>
    match c with
    | .element _ _ _ _ => true
    | .text t => !t.isEmpty)

/-- `writeIndent` (second variant): the indent string repeated `depth`
times; nothing when no indentation is configured. -/
def writeIndent (indent : List Char) (depth : Nat) : List Char :=
  if indent.isEmpty then [] else (List.replicate depth indent).flatten

/-- The attribute rendering loop of `VisitElement`: each attribute as
` name="escaped-value"` — the attribute NAME is written verbatim, only
the value goes through `escapeString`. -/
def renderAttrs (attrs : List Attr) : List Char :=
  (attrs.map (fun a =>
    ' ' :: a.name ++ '=' :: quoteChar :: escapeString a.value ++ [quoteChar])).flatten

/-- The self-close decision of `VisitElement` (second variant, line 192):
the node's explicit flag, or the name is configured self-closing and the
element has no non-empty children. -/
def shouldSelfClose (selfClosingTags : List (List Char)) (name : List Char)
    (children : List Node) (selfClose : Bool) : Bool :=
  selfClose || (selfClosingTags.contains name && !hasNonEmptyChildren children)

/-- True when the last child is an element node (the closing-indentation
test of `VisitElement`). -/
def lastChildIsElement (children : List Node) : Bool :=
  match children.getLast? with
  | some (.element _ _ _ _) => true
  | _ => false

mutual
/-- `VisitElement` / `VisitText` of the second encoder variant
(src/encoder.go lines 172-238): a newline before every element at
depth > 0, then indentation, `<name`, the attributes verbatim-name /
escaped-value, then either `/>` (children not visited) or
`>` children (at depth+1) with a closing newline+indent only when the
last child is an element, and `</name>`.  Text renders escaped, inline. -/
def render (sc : List (List Char)) (indent : List Char) (depth : Nat) :
    Node → List Char
  | .text t => escapeString t
  | .element name attrs children selfClose =>
    (if depth > 0 then [nlChar] else []) ++ writeIndent indent depth ++
    '<' :: name ++ renderAttrs attrs ++
    (if shouldSelfClose sc name children selfClose then "/>".data
     else
       '>' :: renderChildren sc indent (depth + 1) children ++
       (if children.length > 0 && lastChildIsElement children then
          nlChar :: writeIndent indent depth
        else []) ++
       '<' :: '/' :: name ++ ['>'])
termination_by n => sizeOf n
decreasing_by all_goals first | (simp; omega) | simp

/-- The child-visiting loop of `VisitElement`. -/
def renderChildren (sc : List (List Char)) (indent : List Char) (depth : Nat) :
    List Node → List Char
  | [] => []
  | c :: cs => render sc indent depth c ++ renderChildren sc indent depth cs
termination_by cs => sizeOf cs
decreasing_by all_goals first | (simp; omega) | simp
end

/-! ## Marshal orchestration (src/unnamed/part_002 lines 16-91)

`Marshal` takes an `interface{}`; the embedding distinguishes the
untyped nil interface (for which `reflect.TypeOf` returns nil) from a
typed value together with the `Name()` of its dynamic type (which is the
empty string for unnamed types such as pointer types). -/

/-- The `interface{}` argument of `Marshal`. -/
inductive GoInterface where
  | untypedNil
  | value (typeName : List Char) (v : GoValue)

/-- `MarshalOptions` from src/unnamed/part_002 lines 16-24 (the
`SpacedSelfClose` field is consumed only by an encoder variant that is
not part of the sources and is omitted). -/
structure MarshalOptions where
  Indent : List Char := []
  XMLHeader : Bool := false
  Namespace : List Char := []
  RootTag : List Char := []
  Compress : Bool := false
  SelfClosingTags : List (List Char) := []

/-- The fixed document prolog literal. -/
def xmlHeaderStr : List Char :=
  "<?xml version=".data ++ quoteChar :: "1.0".data ++ quoteChar ::
    " encoding=".data ++ quoteChar :: "UTF-8".data ++ quoteChar :: "?>".data

/-- The namespace-injection step of `Marshal` (src/unnamed/part_002
lines 59-68): when a namespace is configured, the node is an element and
it has no `xmlns` attribute yet, insert one at the beginning of the
attribute list. -/
def applyNamespace (ns : List Char) (n : Node) : Node :=
  if ns.isEmpty then n
  else
    match n with
    | .element name attrs children sc =>
      if hasAttribute attrs "xmlns".data then .element name attrs children sc
      else
        .element name
          (insertAttributeAtBeginning attrs ⟨"xmlns".data, ns⟩) children sc
    | t => t

/-- Modelled from the spec: the gzip algorithm (`compress/gzip`) lives in
Go's standard library, outside this repository; §4.6 requires only a
deterministic envelope whose decompression recovers the exact original
bytes.  Modelled as framing the payload behind the two gzip magic
bytes. -/
def gzipCompress (data : List Char) : List Char :=
  Char.ofNat 31 :: Char.ofNat 139 :: data

/-- Modelled from the spec: inverse of `gzipCompress` (§4.6
"deterministic decompression recovers the exact original bytes"). -/
def gzipDecompress (data : List Char) : Option (List Char) :=
  match data with
  | c1 :: c2 :: rest =>
    if c1 = Char.ofNat 31 ∧ c2 = Char.ofNat 139 then some rest else none
  | _ => none

/-- The outcome of a `Marshal` call: a byte slice, an error, or a
runtime panic. -/
inductive MarshalResult where
  | panicked
  | err (msg : List Char)
  | ok (bytes : List Char)

/-- `reflect.TypeOf(v)` followed by `.Name()`: `none` when the interface
is the untyped nil (`TypeOf` returns nil and the `Name` call panics). -/
def typeNameOf : GoInterface → Option (List Char)
  | .untypedNil => none
  | .value tn _ => some tn

/-- `Marshal` from src/unnamed/part_002 lines 26-79: resolve the root
tag (calling `Name()` on the dynamic type when no override is set — a
nil-pointer dereference panic for the untyped nil interface), build the
tree, fail when the builder yields no node, write the optional prolog,
inject the namespace attribute, encode, and optionally compress.
An untyped nil that survives root-tag resolution still panics:
`reflect.ValueOf(nil)` is the zero `Value` and `valueToString` calls
`Interface()` on it inside `handleSimpleNode`. -/
def Marshal (v : GoInterface) (opts : MarshalOptions) : MarshalResult :=
  match (if opts.RootTag.isEmpty then typeNameOf v else some opts.RootTag) with
  | none => .panicked
  | some rootTag =>
    match v with
    | .untypedNil => .panicked
    | .value _ gv =>
      match structToNode gv [rootTag] with
      | .error e => .err ("error converting structure to node: ".data ++ e)
      | .ok none => .err "returned node is null".data
      | .ok (some node) =>
        let node2 := applyNamespace opts.Namespace node
        let header :=
          if opts.XMLHeader then
            xmlHeaderStr ++ (if opts.Indent.isEmpty then [] else [nlChar])
          else []
        let bytes := header ++ render opts.SelfClosingTags opts.Indent 0 node2
        if opts.Compress then .ok (gzipCompress bytes) else .ok bytes

/-! ## Parallel vs. sequential sequence build

src/unnamed/part_002 `handleSliceNode` builds the items of a sequence in
one goroutine each: every goroutine owns exactly the slot of its index in
the pre-sized `childNodes` array, and a failing goroutine performs a
non-blocking send into an error channel of capacity one (so the first
completed failure is kept and all later ones are dropped).  After the
join barrier the first error, if any, is surfaced, and otherwise the
non-nil slots are appended in index order.  src/unnamed/part_003
`handleSliceNode` is the sequential variant: items are built in index
order and the first failing item aborts.  The two are embedded
generically in the per-item build function `f`; the scheduler's
completion order is an explicit permutation of the item indices. -/

/-- The shared state of the parallel build: the index-addressed result
array (`none` both for a not-yet-written slot and for a nil result) and
the single first-error cell. -/
structure ParState (E : Type) where
  slots : Nat → Option Node
  firstErr : Option E

/-- What one goroutine does once scheduled (src/unnamed/part_002 lines
190-204): build the item; on failure try the non-blocking error send
(kept only if the cell is still empty); on success write the slot of its
own index. -/
def parStep {α E : Type} (f : α → Except E (Option Node)) (items : List α)
    (s : ParState E) (i : Fin items.length) : ParState E :=
  match f (items.get i) with
  | .error e => { s with firstErr := s.firstErr.orElse (fun _ => some e) }
  | .ok nd => { s with slots := Function.update s.slots i.val nd }

/-- Run every goroutine to completion in the scheduler's order. -/
def parRun {α E : Type} (f : α → Except E (Option Node)) (items : List α)
    (order : List (Fin items.length)) : ParState E :=
  order.foldl (parStep f items) ⟨fun _ => none, none⟩

/-- The parallel `handleSliceNode` of src/unnamed/part_002, generic in
the per-item builder and in the completion order: after the join
barrier, surface the first captured error, otherwise collect the non-nil slots in
index order under an element named by the current tag. -/
def handleSliceNodePar {α E : Type} (f : α → Except E (Option Node))
    (items : List α) (currentTag : List Char)
    (order : List (Fin items.length)) : Except E Node :=
  match (parRun f items order).firstErr with
  | some e => .error e
  | none =>
    .ok (.element currentTag []
      ((List.range items.length).filterMap (parRun f items order).slots)
      false)

/-- The item loop of the sequential `handleSliceNode`
(src/unnamed/part_003 lines 157-166): build items in index order,
aborting on the first error, skipping nil results. -/
def seqBuildChildren {α E : Type} (f : α → Except E (Option Node)) :
    List α → Except E (List Node)
  | [] => .ok []
  | x :: xs =>
    match f x with
    | .error e => .error e
    | .ok none => seqBuildChildren f xs
    | .ok (some n) =>
      match seqBuildChildren f xs with
      | .error e => .error e
      | .ok ns => .ok (n :: ns)

/-- The sequential `handleSliceNode` of src/unnamed/part_003, generic in
the per-item builder. -/
def handleSliceNodeSeq {α E : Type} (f : α → Except E (Option Node))
    (items : List α) (currentTag : List Char) : Except E Node :=
  match seqBuildChildren f items with
  | .error e => .error e
  | .ok children => .ok (.element currentTag [] children false)

/-! ## Structural lemmas about the tree builder -/

/-- The feature-complete builder variant carries an error channel but
never constructs an error on any path: every function of the mutual
block returns `.ok`. -/
theorem builder_total :
    (∀ v tags, ∃ r, structToNode v tags = .ok r) ∧
    (∀ items tag rem, ∃ r, handleSliceNode items tag rem = .ok r) ∧
    (∀ items rem, ∃ ns, buildSliceItems items rem = .ok ns) ∧
    (∀ fields tag, ∃ r, handleStructNode fields tag = .ok r) ∧
    (∀ e fields, ∃ e2, buildStructFields e fields = .ok e2) ∧
    (∀ e f, ∃ e2, fieldStep e f = .ok e2) ∧
    (∀ e v tn topts, ∃ e2, processField e v tn topts = .ok e2) ∧
    (∀ e v ct, ∃ e2, processChildTags e v ct = .ok e2) ∧
    (∀ v lt, ∃ ns, buildFieldContent v lt = .ok ns) ∧
    (∀ e v, ∃ e2, processAnonymousField e v = .ok e2) := by
  apply structToNode.mutual_induct <;> intros <;>
    first
      | (simp_all [structToNode, handleSliceNode, buildSliceItems,
          handleStructNode, buildStructFields, fieldStep, processChildTags,
          buildFieldContent, processAnonymousField, handleSimpleNode]; done)
      | (simp_all [structToNode, handleSliceNode, buildSliceItems,
          handleStructNode, buildStructFields, fieldStep, processChildTags,
          buildFieldContent, processAnonymousField, handleSimpleNode];
         assumption)
      | (simp_all [structToNode, handleSliceNode, buildSliceItems,
          handleStructNode, buildStructFields, fieldStep, processField,
          processChildTags, buildFieldContent, processAnonymousField,
          handleSimpleNode]; done)
      | (rw [fieldStep.eq_def]; simp_all [processAnonymousField.eq_def];
         try assumption; done)
      | (rw [processField.eq_def]; simp_all; try assumption; done)
      | skip
  all_goals
    (rename_i hattr hcond ih
     rcases ih with ⟨e2, he⟩
     exact ⟨e2, by
       rw [if_neg (fun hc => by
         rw [hcond hc.1] at hc; exact absurd hc.2 (by simp))]
       exact he⟩)

/-- The pointer/interface dereference loop at the head of
`structToNode`: `none` when the chain ends at nil. -/
def derefChain : GoValue → Option GoValue
  | .vPtr none => none
  | .vPtr (some w) => derefChain w
  | .vInt n => some (.vInt n)
  | .vString s => some (.vString s)
  | .vBool b => some (.vBool b)
  | .vFloat q => some (.vFloat q)
  | .vStruct fs => some (.vStruct fs)
  | .vSlice xs => some (.vSlice xs)

theorem derefChain_not_ptr {v w : GoValue} (h : derefChain v = some w) :
    ∀ p, w ≠ .vPtr p := by
  induction v using derefChain.induct with
  | case1 => simp [derefChain] at h
  | case2 w' ih => rw [derefChain] at h; exact ih h
  | case3 n => simp [derefChain] at h; subst h; simp
  | case4 s => simp [derefChain] at h; subst h; simp
  | case5 b => simp [derefChain] at h; subst h; simp
  | case6 q => simp [derefChain] at h; subst h; simp
  | case7 fs => simp [derefChain] at h; subst h; simp
  | case8 xs => simp [derefChain] at h; subst h; simp

theorem structToNode_deref {v w : GoValue} (h : derefChain v = some w)
    (tags : List (List Char)) : structToNode v tags = structToNode w tags := by
  induction v using derefChain.induct with
  | case1 => simp [derefChain] at h
  | case2 w' ih => rw [derefChain] at h; rw [structToNode]; exact ih h
  | case3 n => simp [derefChain] at h; subst h; rfl
  | case4 s => simp [derefChain] at h; subst h; rfl
  | case5 b => simp [derefChain] at h; subst h; rfl
  | case6 q => simp [derefChain] at h; subst h; rfl
  | case7 fs => simp [derefChain] at h; subst h; rfl
  | case8 xs => simp [derefChain] at h; subst h; rfl

theorem structToNode_nil_deref {v : GoValue} (h : derefChain v = none)
    (tags : List (List Char)) : structToNode v tags = .ok none := by
  induction v using derefChain.induct with
  | case1 => rw [structToNode]
  | case2 w' ih => rw [derefChain] at h; rw [structToNode]; exact ih h
  | case3 n => simp [derefChain] at h
  | case4 s => simp [derefChain] at h
  | case5 b => simp [derefChain] at h
  | case6 q => simp [derefChain] at h
  | case7 fs => simp [derefChain] at h
  | case8 xs => simp [derefChain] at h

/-- A value whose dereference chain does not end at nil always builds a
node. -/
theorem structToNode_some {v w : GoValue} (h : derefChain v = some w)
    (tags : List (List Char)) :
    ∃ n, structToNode v tags = .ok (some n) := by
  rw [structToNode_deref h tags]
  cases w with
  | vPtr p => exact absurd rfl (derefChain_not_ptr h p)
  | vStruct fields =>
    obtain ⟨e2, he⟩ := builder_total.2.2.2.2.1 ⟨tags.headD [], [], []⟩ fields
    refine ⟨e2.toNode, ?_⟩
    rw [structToNode, handleStructNode, he]
  | vSlice items =>
    obtain ⟨ns, hns⟩ := builder_total.2.2.1 items tags.tail
    refine ⟨.element (tags.headD []) [] ns false, ?_⟩
    rw [structToNode, handleSliceNode, hns]
  | vInt n =>
    exact ⟨handleSimpleNode (.vInt n) (tags.headD []), by simp [structToNode]⟩
  | vString s =>
    exact ⟨handleSimpleNode (.vString s) (tags.headD []), by simp [structToNode]⟩
  | vBool b =>
    exact ⟨handleSimpleNode (.vBool b) (tags.headD []), by simp [structToNode]⟩
  | vFloat q =>
    exact ⟨handleSimpleNode (.vFloat q) (tags.headD []), by simp [structToNode]⟩

/-! ## Claim theorems -/

/-- C5: the escaping applied to text content and to attribute values
replaces exactly the five reserved characters — `&`→`&amp;`, `<`→`&lt;`,
`>`→`&gt;`, `"`→`&quot;`, `'`→`&apos;` — passes every other character
(rune) through unchanged, and is injective. -/
theorem claim_C5_escaping :
    escChar '&' = "&amp;".data ∧ escChar '<' = "&lt;".data ∧
    escChar '>' = "&gt;".data ∧ escChar quoteChar = "&quot;".data ∧
    escChar aposChar = "&apos;".data ∧
    (∀ c : Char, c ≠ '&' → c ≠ '<' → c ≠ '>' → c ≠ quoteChar →
      c ≠ aposChar → escChar c = [c]) ∧
    (∀ s, escapeString s = (s.map escChar).flatten) ∧
    (∀ sc ind depth t, render sc ind depth (.text t) = escapeString t) ∧
    (∀ a : Attr, renderAttrs [a] =
      ' ' :: a.name ++ '=' :: quoteChar :: escapeString a.value ++
        [quoteChar]) ∧
    Function.Injective escapeString := by
  refine ⟨rfl, rfl, rfl, rfl, rfl, ?_, fun _ => rfl, ?_, ?_, escapeString_injective⟩
  · intro c h1 h2 h3 h4 h5
    rw [escChar, if_neg h1, if_neg h2, if_neg h3, if_neg h4, if_neg h5]
  · intro sc ind depth t
    rw [render]
  · intro a
    simp [renderAttrs]

/-- Witness for C5 at concrete inputs. -/
theorem claim_C5_escaping_witness :
    escChar 'x' = ['x'] ∧ escapeString "a&b".data = "a&amp;b".data := by
  constructor
  · exact claim_C5_escaping.2.2.2.2.2.1 'x' (by decide) (by decide) (by decide)
      (by decide) (by decide)
  · decide

/-- C7: with a namespace configured and no existing `xmlns` attribute on
the root element, `Marshal`'s namespace step inserts the `xmlns`
attribute as the first attribute, preserving the relative order of all
pre-existing attributes; when an `xmlns` attribute already exists,
nothing is added. -/
theorem claim_C7_namespace :
    (∀ attrs a, insertAttributeAtBeginning attrs a = a :: attrs) ∧
    (∀ ns name attrs children f, ns ≠ [] →
      hasAttribute attrs "xmlns".data = false →
      applyNamespace ns (.element name attrs children f) =
        .element name (⟨"xmlns".data, ns⟩ :: attrs) children f) ∧
    (∀ ns name attrs children f, hasAttribute attrs "xmlns".data = true →
      applyNamespace ns (.element name attrs children f) =
        .element name attrs children f) := by
  refine ⟨fun _ _ => rfl, ?_, ?_⟩
  · intro ns name attrs children f hns hno
    simp [applyNamespace, hno, hns, insertAttributeAtBeginning]
  · intro ns name attrs children f hyes
    by_cases hns : ns.isEmpty <;> simp [applyNamespace, hyes, hns]

/-- Witness for C7 at concrete inputs. -/
theorem claim_C7_namespace_witness :
    applyNamespace "u".data
        (.element "r".data [⟨"a".data, "1".data⟩] [] false) =
      .element "r".data
        [⟨"xmlns".data, "u".data⟩, ⟨"a".data, "1".data⟩] [] false :=
  claim_C7_namespace.2.1 "u".data "r".data [⟨"a".data, "1".data⟩] [] false
    (by decide) (by decide)

/-- C9 (implicit): `Marshal` called on the untyped nil interface with an
empty root-tag override panics (the root tag is resolved by calling
`Name()` on the nil `reflect.Type` before any nil check) instead of
returning the nil-root error; only a typed nil pointer reaches the
"returned node is null" error path. -/
theorem claim_C9_nil_panic :
    (∀ opts : MarshalOptions, opts.RootTag = [] →
      Marshal .untypedNil opts = .panicked) ∧
    (∀ (opts : MarshalOptions) (tn : List Char),
      Marshal (.value tn (.vPtr none)) opts =
        .err "returned node is null".data) := by
  constructor
  · intro opts h
    simp [Marshal, typeNameOf, h]
  · intro opts tn
    by_cases h : opts.RootTag.isEmpty <;>
      simp [Marshal, typeNameOf, h, structToNode]

/-- Witness for C9 at concrete inputs. -/
theorem claim_C9_nil_panic_witness :
    Marshal .untypedNil {} = .panicked ∧
    Marshal (.value [] (.vPtr none)) {} = .err "returned node is null".data :=
  ⟨claim_C9_nil_panic.1 {} rfl, claim_C9_nil_panic.2 {} []⟩

theorem digitChar_range (n : Nat) :
    48 ≤ (digitChar n).toNat ∧ (digitChar n).toNat ≤ 57 := by
  have e : digitChar n = digitChar (n % 10) := by
    simp only [digitChar]
    congr 1
    omega
  have h : n % 10 < 10 := Nat.mod_lt _ (by norm_num)
  have hall : ∀ k, k < 10 →
      48 ≤ (digitChar k).toNat ∧ (digitChar k).toNat ≤ 57 := by decide
  rw [e]
  exact hall _ h

theorem natToRevDigits_digits (n : Nat) :
    ∀ c ∈ natToRevDigits n, 48 ≤ c.toNat ∧ c.toNat ≤ 57 := by
  induction n using natToRevDigits.induct with
  | case1 => simp [natToRevDigits]
  | case2 n ih =>
    intro c hc
    rw [natToRevDigits] at hc
    rcases List.mem_cons.mp hc with h | h
    · subst h; exact digitChar_range _
    · exact ih c h

theorem natDecimal_digits (n : Nat) :
    ∀ c ∈ natDecimal n, 48 ≤ c.toNat ∧ c.toNat ≤ 57 := by
  intro c hc
  rw [natDecimal] at hc
  by_cases h : n = 0
  · rw [if_pos h] at hc
    simp at hc
    subst hc
    decide
  · rw [if_neg h] at hc
    exact natToRevDigits_digits n c (List.mem_reverse.mp hc)

/-- C8: float stringification is fixed-point with exactly two fractional
digits — the output is an optional sign and decimal digits, then `.`,
then exactly two digits (never scientific notation, never trimmed); the
float value 5000 renders as "5000.00"; booleans render as lowercase
`true`/`false`; integers render as plain decimal. -/
theorem claim_C8_stringification :
    (∀ q : ℚ, ∃ (pre : List Char) (d1 d2 : Char),
      valueToString (.vFloat q) = pre ++ ['.', d1, d2] ∧
      (48 ≤ d1.toNat ∧ d1.toNat ≤ 57) ∧ (48 ≤ d2.toNat ∧ d2.toNat ≤ 57) ∧
      ∀ c ∈ pre, (48 ≤ c.toNat ∧ c.toNat ≤ 57) ∨ c = '-') ∧
    valueToString (.vFloat 5000) = "5000.00".data ∧
    valueToString (.vBool true) = "true".data ∧
    valueToString (.vBool false) = "false".data ∧
    (∀ n : Int, valueToString (.vInt n) =
      (if n < 0 then ['-'] else []) ++ natDecimal n.natAbs) := by
  refine ⟨?_, ?_, by simp [valueToString], by simp [valueToString], ?_⟩
  · intro q
    refine ⟨(if fmtRound (q * 100) < 0 then ['-'] else []) ++
      natDecimal ((fmtRound (q * 100)).natAbs / 100),
      digitChar ((fmtRound (q * 100)).natAbs / 10),
      digitChar (fmtRound (q * 100)).natAbs, ?_, digitChar_range _,
      digitChar_range _, ?_⟩
    · simp [valueToString, fmtFixed2]
    · intro c hc
      rcases List.mem_append.mp hc with h | h
      · right
        by_cases hn : fmtRound (q * 100) < 0 <;> simp [hn] at h
        exact h
      · exact Or.inl (natDecimal_digits _ c h)
  · norm_num [valueToString, fmtFixed2, fmtRound, ratFloor, natDecimal,
      natToRevDigits, digitChar]
  · intro n
    simp [valueToString, intDecimal]

/-- Witness for C8 at a concrete input (discharging the membership
hypothesis of the digit clause). -/
theorem claim_C8_stringification_witness :
    (48 ≤ ('5' : Char).toNat ∧ ('5' : Char).toNat ≤ 57) ∨
      ('5' : Char) = '-' := by
  obtain ⟨pre, d1, d2, heq, _, _, hpre⟩ :=
    claim_C8_stringification.1 5000
  apply hpre
  have h2 : valueToString (.vFloat 5000) = "5000.00".data :=
    claim_C8_stringification.2.1
  rw [h2] at heq
  have hlen : pre.length = 4 := by
    have hl := congrArg List.length heq
    simp at hl
    omega
  have hp : pre = ['5', '0', '0', '0'] := by
    calc pre = (pre ++ ['.', d1, d2]).take 4 := (List.take_left' hlen).symm
    _ = ("5000.00".data).take 4 := by rw [← heq]
    _ = ['5', '0', '0', '0'] := by decide
  rw [hp]
  decide

/-- C3: an element renders self-closing (children not visited) iff its
explicit flag is set, or its name is in the configured self-closing set
and it has no element child and no text child with non-empty content;
an element in the set whose only child is an empty text node renders
`<name/>`, while the same element with non-empty text renders
`<name>content</name>`, never self-closed. -/
theorem claim_C3_selfclose :
    (∀ children, hasNonEmptyChildren children = false ↔
      ∀ c ∈ children, c = Node.text []) ∧
    (∀ sc name children flag,
      shouldSelfClose sc name children flag = true ↔
        flag = true ∨ (name ∈ sc ∧ hasNonEmptyChildren children = false)) ∧
    (∀ sc ind depth name attrs children flag,
      shouldSelfClose sc name children flag = true →
      render sc ind depth (.element name attrs children flag) =
        (if depth > 0 then [nlChar] else []) ++ writeIndent ind depth ++
        '<' :: name ++ renderAttrs attrs ++ "/>".data) ∧
    (∀ sc ind depth name attrs children flag,
      shouldSelfClose sc name children flag = false →
      render sc ind depth (.element name attrs children flag) =
        (if depth > 0 then [nlChar] else []) ++ writeIndent ind depth ++
        '<' :: name ++ renderAttrs attrs ++
        '>' :: renderChildren sc ind (depth + 1) children ++
        (if children.length > 0 && lastChildIsElement children then
           nlChar :: writeIndent ind depth else []) ++
        '<' :: '/' :: name ++ ['>']) ∧
    render ["item".data] [] 0 (.element "item".data [] [.text []] false) =
      "<item/>".data ∧
    render ["item".data] [] 0
        (.element "item".data [] [.text "content".data] false) =
      "<item>content</item>".data := by
  refine ⟨?_, ?_, ?_, ?_, ?_, ?_⟩
  · intro children
    rw [hasNonEmptyChildren, List.any_eq_false]
    constructor
    · intro h c hc
      have := h c hc
      cases c with
      | element _ _ _ _ => simp at this
      | text t => simpa using this
    · intro h c hc
      rw [h c hc]
      simp
  · intro sc name children flag
    rw [shouldSelfClose]
    simp [List.elem_iff]
  · intro sc ind depth name attrs children flag h
    rw [render, if_pos h]
  · intro sc ind depth name attrs children flag h
    rw [render,
      if_neg (show ¬(shouldSelfClose sc name children flag = true) by
        simp [h])]
    simp
  · rw [render]
    norm_num [shouldSelfClose, hasNonEmptyChildren, writeIndent, renderAttrs]
    try rfl
  · rw [render]
    norm_num [shouldSelfClose, hasNonEmptyChildren, writeIndent, renderAttrs,
      lastChildIsElement]
    try rw [renderChildren, render, renderChildren]
    try decide

/-- Witness for C3 at concrete inputs. -/
theorem claim_C3_selfclose_witness :
    render ["br".data] [] 0
        (.element "br".data [⟨"a".data, "v".data⟩] [] false) =
      (if (0 : Nat) > 0 then [nlChar] else []) ++ writeIndent [] 0 ++
        '<' :: "br".data ++ renderAttrs [⟨"a".data, "v".data⟩] ++
        "/>".data :=
  claim_C3_selfclose.2.2.1 ["br".data] [] 0 "br".data
    [⟨"a".data, "v".data⟩] [] false (by decide)

/-! ## A minimal well-formedness checker

A small recursive-descent parser for single-rooted markup documents,
used to exhibit that output produced for wire names containing reserved
characters is not well-formed.  Names consist of characters outside the
reserved set; attributes are `name="value"` with quoted values; text may
not contain `<`. -/

/-- Characters allowed in an element or attribute name. -/
def nameOk (c : Char) : Bool :=
  !(c = '<' || c = '>' || c = quoteChar || c = aposChar || c = '&' ||
    c = '=' || c = '/' || c = ' ' || c = tabChar || c = nlChar)

/-- Parse the remainder of a start tag after the name: attributes until
`>` (returns `false`) or `/>` (returns `true`). -/
def pAttrs : Nat → List Char → Option (Bool × List Char)
  | 0, _ => none
  | _ + 1, '>' :: r => some (false, r)
  | _ + 1, '/' :: '>' :: r => some (true, r)
  | fuel + 1, ' ' :: r => pAttrs fuel r
  | fuel + 1, c :: r =>
    if nameOk c then
      match (c :: r).dropWhile nameOk with
      | '=' :: q :: r2 =>
        if q = quoteChar then
          match r2.dropWhile (fun d => !(d = quoteChar || d = '<')) with
          | q2 :: r3 => if q2 = quoteChar then pAttrs fuel r3 else none
          | [] => none
        else none
      | _ => none
    else none
  | _ + 1, [] => none

mutual
/-- Parse one element, returning the unconsumed rest. -/
def pElem : Nat → List Char → Option (List Char)
  | 0, _ => none
  | fuel + 1, '<' :: rest =>
    if (rest.takeWhile nameOk).isEmpty then none
    else
      match pAttrs (rest.length + 1) (rest.dropWhile nameOk) with
      | some (true, r2) => some r2
      | some (false, r2) => pChildren fuel (rest.takeWhile nameOk) r2
      | none => none
  | _ + 1, _ => none

/-- Parse element content (text and child elements) up to and including
the matching end tag. -/
def pChildren : Nat → List Char → List Char → Option (List Char)
  | 0, _, _ => none
  | _ + 1, nm, '<' :: '/' :: r =>
    if r.takeWhile nameOk = nm then
      match r.dropWhile nameOk with
      | '>' :: r2 => some r2
      | _ => none
    else none
  | fuel + 1, nm, '<' :: rest =>
    match pElem fuel ('<' :: rest) with
    | some r2 => pChildren fuel nm r2
    | none => none
  | _ + 1, _, [] => none
  | fuel + 1, nm, c :: rest =>
    pChildren fuel nm ((c :: rest).dropWhile (fun d => !(d = '<')))
end

/-- A byte sequence is a well-formed document when it parses as exactly
one element with nothing left over. -/
def wellFormedDoc (s : List Char) : Bool :=
  pElem (s.length + 1) s = some []

/-- C10 (implicit): element names and attribute names are emitted
verbatim — no escaping, no validation; escaping applies only to
attribute values and text content — so markup produced for a wire name
containing a reserved character (`<`, `"`, a space) is not well-formed,
while the same element with a clean name is. -/
theorem claim_C10_verbatim_names :
    (∀ name an av,
      render [] [] 0 (.element name [⟨an, av⟩] [] true) =
        '<' :: name ++ ' ' :: an ++ '=' :: quoteChar :: escapeString av ++
          quoteChar :: "/>".data) ∧
    (∀ name t, render [] [] 0 (.element name [] [.text t] false) =
      '<' :: name ++ '>' :: escapeString t ++ '<' :: '/' :: name ++ ['>']) ∧
    wellFormedDoc (render [] [] 0 (.element "ab".data [] [] false)) =
      true ∧
    wellFormedDoc (render [] [] 0 (.element "a<b".data [] [] false)) =
      false ∧
    wellFormedDoc (render [] [] 0 (.element "a b".data [] [] false)) =
      false ∧
    wellFormedDoc (render [] [] 0
      (.element ('a' :: quoteChar :: ['b']) [] [] false)) = false := by
  have hplain : ∀ name : List Char,
      render [] [] 0 (.element name [] [] false) =
        '<' :: name ++ '>' :: '<' :: '/' :: name ++ ['>'] := by
    intro name
    rw [render]
    norm_num [shouldSelfClose, hasNonEmptyChildren, writeIndent, renderAttrs,
      lastChildIsElement, renderChildren, contains]
  refine ⟨?_, ?_, ?_, ?_, ?_, ?_⟩
  · intro name an av
    rw [render]
    norm_num [shouldSelfClose, writeIndent, renderAttrs]
  · intro name t
    rw [render]
    simp [shouldSelfClose, hasNonEmptyChildren, writeIndent, renderAttrs,
      lastChildIsElement, contains, renderChildren, render]
  · rw [hplain]; decide
  · rw [hplain]; decide
  · rw [hplain]; decide
  · rw [hplain]; decide

/-- Scalar kinds: everything hitting the `default` of the builder's
dispatch switch. -/
def isScalarKind : GoValue → Bool
  | .vInt _ => true
  | .vString _ => true
  | .vBool _ => true
  | .vFloat _ => true
  | .vPtr _ => false
  | .vStruct _ => false
  | .vSlice _ => false

/-- C2 counterexample: in the feature-complete builder a scalar reached
with an empty tag path does NOT fail with a missing-tag error — it
yields an element with an empty name; likewise a slice reached with an
exhausted tag path succeeds. -/
theorem claim_C2_counterexample :
    structToNode (.vInt 5) [] =
      .ok (some (.element [] [] [.text ['5']] false)) ∧
    structToNode (.vSlice [.vInt 1]) [] =
      .ok (some (.element [] []
        [.element [] [] [.text ['1']] false] false)) := by
  constructor
  · simp [structToNode, handleSimpleNode, valueToString, intDecimal,
      natDecimal, natToRevDigits, digitChar]
  · simp [structToNode, handleSliceNode, buildSliceItems, handleSimpleNode,
      valueToString, intDecimal, natDecimal, natToRevDigits, digitChar]

/-- C2 amended: a scalar (or slice/array) reached by the feature-complete
builder with an exhausted tag path does not fail; it produces an element
whose name is the empty string (wrapping the scalar's stringified text,
or the built items). -/
theorem claim_C2_amended :
    (∀ v, isScalarKind v = true →
      structToNode v [] =
        .ok (some (.element [] [] [.text (valueToString v)] false))) ∧
    (∀ items, ∃ children, structToNode (.vSlice items) [] =
      .ok (some (.element [] [] children false))) := by
  constructor
  · intro v h
    cases v <;> simp_all [isScalarKind, structToNode, handleSimpleNode]
  · intro items
    obtain ⟨ns, hns⟩ := builder_total.2.2.1 items []
    refine ⟨ns, ?_⟩
    rw [structToNode]
    simp only [List.headD_nil, List.tail_nil]
    rw [handleSliceNode, hns]

/-- Witness for the amended C2 at a concrete input. -/
theorem claim_C2_amended_witness :
    structToNode (.vBool true) [] =
      .ok (some (.element [] []
        [.text (valueToString (.vBool true))] false)) :=
  claim_C2_amended.1 (.vBool true) (by decide)

/-- The node a single build contributes under the given tag path (this
builder variant never errors, so the error branch is dead). -/
def builtNode (v : GoValue) (tags : List (List Char)) : Option Node :=
  match structToNode v tags with
  | .ok nd => nd
  | .error _ => none

/-- The item loop of `processChildTags` collects, in item order, exactly
the items whose build yields a node. -/
theorem buildSliceItems_filterMap (rem : List (List Char)) :
    ∀ items, buildSliceItems items rem =
      .ok (items.filterMap (fun x => builtNode x rem)) := by
  intro items
  induction items with
  | nil => simp [buildSliceItems]
  | cons x xs ih =>
    obtain ⟨r, hr⟩ := builder_total.1 x rem
    have hb : builtNode x rem = r := by rw [builtNode, hr]
    cases r with
    | none => rw [buildSliceItems, hr, ih, List.filterMap_cons, hb]
    | some n => rw [buildSliceItems, hr, ih, List.filterMap_cons, hb]

/-- On a non-slice value, the content loop builds a single node from the
last tag (or nothing for a nil chain). -/
theorem buildFieldContent_not_slice {v : GoValue}
    (hnotslice : ∀ items, v ≠ .vSlice items) (lastTag : List Char) :
    buildFieldContent v lastTag =
      match structToNode v [lastTag] with
      | .error err => .error err
      | .ok none => .ok []
      | .ok (some n) => .ok [n] := by
  cases v with
  | vSlice items => exact absurd rfl (hnotslice items)
  | vPtr p => simp [buildFieldContent]
  | vInt n => simp [buildFieldContent]
  | vString s => simp [buildFieldContent]
  | vBool b => simp [buildFieldContent]
  | vFloat q => simp [buildFieldContent]
  | vStruct fs => simp [buildFieldContent]

theorem splitOnChar_ne_nil (c : Char) : ∀ s, splitOnChar c s ≠ [] := by
  intro s
  induction s with
  | nil => simp [splitOnChar]
  | cons x rest ih =>
    rw [splitOnChar]
    cases hs : splitOnChar c rest with
    | nil => simp
    | cons hd tl => by_cases hx : x = c <;> simp [hx]

/-- Splitting a string that contains the separator yields at least two
fields. -/
theorem splitOnChar_length_two (c : Char) : ∀ s : List Char,
    s.contains c = true → 2 ≤ (splitOnChar c s).length := by
  intro s
  induction s with
  | nil => intro h; simp at h
  | cons x rest ih =>
    intro h
    rw [splitOnChar]
    cases hs : splitOnChar c rest with
    | nil => exact absurd hs (splitOnChar_ne_nil c rest)
    | cons hd tl =>
      by_cases hx : x = c
      · simp [hx]
      · have hr : rest.contains c = true := by
          simp [List.contains_cons] at h
          rcases h with h | h
          · exact absurd h.symm hx
          · exact List.elem_iff.mpr h
        have h2 := ih hr
        rw [hs] at h2
        simp [hx]
        simp at h2
        omega

/-- C1 counterexample: a zero-valued field tagged `attr,omitempty` is
still emitted as an attribute (the `attr` branch of `processField`
returns before the `omitempty` check); a non-empty field whose value is a
non-nil pointer to a nil pointer is omitted entirely; and a non-empty
slice whose only item is a nil pointer is likewise omitted entirely. -/
theorem claim_C1_counterexample :
    processField ⟨"root".data, [], []⟩ (.vInt 0) "id".data
        ["attr".data, "omitempty".data] =
      .ok ⟨"root".data, [⟨"id".data, ['0']⟩], []⟩ ∧
    isEmptyValue (.vInt 0) = true ∧
    processField ⟨"root".data, [], []⟩ (.vPtr (some (.vPtr none))) "p".data
        ["omitempty".data] = .ok ⟨"root".data, [], []⟩ ∧
    isEmptyValue (.vPtr (some (.vPtr none))) = false ∧
    processField ⟨"root".data, [], []⟩ (.vSlice [.vPtr none]) "n".data
        ["omitempty".data] = .ok ⟨"root".data, [], []⟩ ∧
    isEmptyValue (.vSlice [.vPtr none]) = false := by
  refine ⟨?_, by decide, ?_, by decide, ?_, by decide⟩
  · simp [processField, contains, valueToString, intDecimal, natDecimal]
  · simp [processField, contains, isEmptyValue, processChildTags,
      buildFieldContent, structToNode, wrapChain]
  · simp [processField, contains, isEmptyValue, processChildTags,
      buildFieldContent, buildSliceItems, structToNode, wrapChain]

/-- C1 amended: `omitempty` affects only non-attribute fields — an
`attr`-tagged field is always emitted as an attribute with its
stringified value, regardless of `omitempty` and of emptiness.  A
non-attribute field is skipped exactly when it carries `omitempty` and
its value is empty.  An included field appends its content as follows: a
non-slice value whose dereference chain does not reach nil appends
exactly one child; a plain-tagged value dereferencing to nil appends
nothing (the field is omitted); a `>`-joined tag always appends exactly
one node — its wrapper chain — whatever the value produces; and a
plain-tagged slice appends one child per item whose build yields a node,
in item order, so nil-pointer items contribute nothing and a non-empty
slice of nil pointers is omitted entirely despite being non-empty. -/
theorem claim_C1_amended :
    (∀ e v tagName tagOptions, contains tagOptions "attr".data = true →
      processField e v tagName tagOptions =
        .ok { e with attrs := e.attrs ++ [⟨tagName, valueToString v⟩] }) ∧
    (∀ e v tagName tagOptions, contains tagOptions "attr".data = false →
      contains tagOptions "omitempty".data = true → isEmptyValue v = true →
      processField e v tagName tagOptions = .ok e) ∧
    (∀ e v tagName tagOptions w, contains tagOptions "attr".data = false →
      ¬(contains tagOptions "omitempty".data = true ∧
        isEmptyValue v = true) →
      derefChain v = some w → (∀ items, v ≠ .vSlice items) →
      ∃ n, processField e v tagName tagOptions =
        .ok { e with children := e.children ++ [n] }) ∧
    (∀ e v tagName tagOptions, contains tagOptions "attr".data = false →
      ¬(contains tagOptions "omitempty".data = true ∧
        isEmptyValue v = true) →
      derefChain v = none → tagName.contains '>' = false →
      processField e v tagName tagOptions = .ok e) ∧
    (∀ e v tagName tagOptions, contains tagOptions "attr".data = false →
      ¬(contains tagOptions "omitempty".data = true ∧
        isEmptyValue v = true) →
      tagName.contains '>' = true →
      ∃ m, processField e v tagName tagOptions =
        .ok { e with children := e.children ++ [m] }) ∧
    (∀ e items tagName tagOptions, contains tagOptions "attr".data = false →
      ¬(contains tagOptions "omitempty".data = true ∧
        isEmptyValue (GoValue.vSlice items) = true) →
      tagName.contains '>' = false →
      processField e (.vSlice items) tagName tagOptions =
        .ok { e with children := e.children ++
          items.filterMap (fun x => builtNode x [tagName]) }) ∧
    (∀ tag fname v, isEmptyValue v = true →
      handleStructNode [.mk fname "n,omitempty".data false none v] tag =
        .ok (some (.element tag [] [] false))) := by
  refine ⟨?_, ?_, ?_, ?_, ?_, ?_, ?_⟩
  · intro e v tagName tagOptions h
    rw [processField, if_pos h]
  · intro e v tagName tagOptions hattr homit hemp
    rw [processField, if_neg (by simp [hattr]),
      if_pos (by simp [homit, hemp])]
  · intro e v tagName tagOptions w hattr hskip hderef hnotslice
    obtain ⟨n0, hn0⟩ := structToNode_some hderef
      [(if tagName.contains '>' = true then splitOnChar '>' tagName
        else [tagName]).getLastD []]
    cases hdl : (if tagName.contains '>' = true then splitOnChar '>' tagName
        else [tagName]).dropLast with
    | nil =>
      refine ⟨n0, ?_⟩
      rw [processField, if_neg (by simp [hattr]),
        if_neg (by simp only [Bool.and_eq_true]; exact hskip),
        processChildTags, buildFieldContent_not_slice hnotslice, hn0, hdl]
      rfl
    | cons t ts =>
      refine ⟨.element t [] (wrapChain ts [n0]) false, ?_⟩
      rw [processField, if_neg (by simp [hattr]),
        if_neg (by simp only [Bool.and_eq_true]; exact hskip),
        processChildTags, buildFieldContent_not_slice hnotslice, hn0, hdl]
      rfl
  · intro e v tagName tagOptions hattr hskip hderef hgt
    have hnotslice : ∀ items, v ≠ .vSlice items := by
      intro items hv
      subst hv
      simp [derefChain] at hderef
    rw [processField, if_neg (by simp [hattr]),
      if_neg (by simp only [Bool.and_eq_true]; exact hskip),
      if_neg (by simpa using hgt),
      processChildTags, buildFieldContent_not_slice hnotslice,
      structToNode_nil_deref hderef]
    simp [wrapChain]
  · intro e v tagName tagOptions hattr hskip hgt
    obtain ⟨content, hcontent⟩ := builder_total.2.2.2.2.2.2.2.2.1 v
      ((if tagName.contains '>' = true then splitOnChar '>' tagName
        else [tagName]).getLastD [])
    have hdl : ∃ t ts,
        (if tagName.contains '>' = true then splitOnChar '>' tagName
          else [tagName]).dropLast = t :: ts := by
      rw [if_pos hgt]
      cases hsp : (splitOnChar '>' tagName).dropLast with
      | nil =>
        exfalso
        have hl := congrArg List.length hsp
        rw [List.length_dropLast] at hl
        have h2 := splitOnChar_length_two '>' tagName hgt
        simp at hl
        omega
      | cons t ts => exact ⟨t, ts, rfl⟩
    obtain ⟨t, ts, hdl⟩ := hdl
    refine ⟨.element t [] (wrapChain ts content) false, ?_⟩
    rw [processField, if_neg (by simp [hattr]),
      if_neg (by simp only [Bool.and_eq_true]; exact hskip),
      processChildTags, hcontent, hdl]
    rfl
  · intro e items tagName tagOptions hattr hskip hgt
    rw [processField, if_neg (by simp [hattr]),
      if_neg (by simp only [Bool.and_eq_true]; exact hskip),
      if_neg (by simpa using hgt),
      processChildTags, buildFieldContent, buildSliceItems_filterMap]
    simp [wrapChain]
  · intro tag fname v hemp
    simp [handleStructNode, buildStructFields, fieldStep.eq_def, processField,
      splitOnChar, contains, hemp, Elem.toNode]

/-- Witness for the amended C1 at concrete inputs. -/
theorem claim_C1_amended_witness :
    processField ⟨"r".data, [], []⟩ (.vString []) "n".data
        ["omitempty".data] = .ok ⟨"r".data, [], []⟩ :=
  claim_C1_amended.2.1 ⟨"r".data, [], []⟩ (.vString []) "n".data
    ["omitempty".data] (by decide) (by decide) (by decide)

/-- C6: compression is an invertible envelope around exactly the
uncompressed markup — whenever the uncompressed call succeeds, the
compressed call (same options otherwise) returns the compressed bytes of
the very same output, and decompressing recovers it byte-for-byte. -/
theorem claim_C6_compression :
    ∀ (v : GoInterface) (opts : MarshalOptions) (out : List Char),
      Marshal v { opts with Compress := false } = .ok out →
      Marshal v { opts with Compress := true } = .ok (gzipCompress out) ∧
      gzipDecompress (gzipCompress out) = some out := by
  intro v opts out h
  refine ⟨?_, by simp [gzipCompress, gzipDecompress]⟩
  obtain ⟨ind, xh, ns, rt, cp, sct⟩ := opts
  unfold Marshal at h ⊢
  dsimp only at h ⊢
  split at h
  · simp at h
  · rename_i rootTag heq
    split at h
    · simp at h
    · rename_i tn gv
      split at h
      · simp at h
      · simp at h
      · rename_i node hnode
        simp only [heq, hnode]
        simp at h ⊢
        rw [← h]

/-- Witness for C6 at a concrete input. -/
theorem claim_C6_compression_witness :
    Marshal (.value "T".data (.vInt 1)) { Compress := true } =
      .ok (gzipCompress "<T>1</T>".data) ∧
    gzipDecompress (gzipCompress "<T>1</T>".data) =
      some "<T>1</T>".data := by
  have h : Marshal (.value "T".data (.vInt 1)) { Compress := false } =
      .ok "<T>1</T>".data := by
    simp [Marshal, typeNameOf, structToNode, handleSimpleNode, valueToString,
      intDecimal, natDecimal, natToRevDigits, digitChar, applyNamespace,
      render, renderAttrs, renderChildren, shouldSelfClose,
      hasNonEmptyChildren, writeIndent, lastChildIsElement, contains]
    decide
  exact claim_C6_compression (.value "T".data (.vInt 1)) {} "<T>1</T>".data h

/-! ## Lemmas about the parallel sequence build -/

/-- What ends up in a goroutine's slot once it has completed: the built
node on success, nothing on failure (the slot keeps its nil
initialisation). -/
def okSlot {E : Type} : Except E (Option Node) → Option Node
  | .ok nd => nd
  | .error _ => none

theorem parStep_error {α E : Type} (f : α → Except E (Option Node))
    (items : List α) (s : ParState E) (i : Fin items.length) (e : E)
    (hf : f (items.get i) = .error e) :
    parStep f items s i =
      { s with firstErr := s.firstErr.orElse (fun _ => some e) } := by
  unfold parStep
  rw [hf]

theorem parStep_ok {α E : Type} (f : α → Except E (Option Node))
    (items : List α) (s : ParState E) (i : Fin items.length)
    (nd : Option Node) (hf : f (items.get i) = .ok nd) :
    parStep f items s i =
      { s with slots := Function.update s.slots i.val nd } := by
  unfold parStep
  rw [hf]

theorem parRun_slots {α E : Type} (f : α → Except E (Option Node))
    (items : List α) :
    ∀ (order : List (Fin items.length)) (s : ParState E),
      order.Nodup → (∀ i ∈ order, s.slots i.val = none) →
      ∀ j : Fin items.length,
        (order.foldl (parStep f items) s).slots j.val =
          if j ∈ order then okSlot (f (items.get j)) else s.slots j.val := by
  intro order
  induction order with
  | nil => intro s _ _ j; simp
  | cons i rest ih =>
    intro s hnd hnone j
    rw [List.foldl_cons]
    obtain ⟨hni, hndr⟩ := List.nodup_cons.mp hnd
    have hnone' : ∀ i' ∈ rest, (parStep f items s i).slots i'.val = none := by
      intro i' hi'
      have hne : i'.val ≠ i.val := by
        intro hv
        exact hni ((Fin.val_injective hv) ▸ hi')
      cases hf : f (items.get i) with
      | error e =>
        rw [parStep_error f items s i e hf]
        exact hnone i' (List.mem_cons_of_mem _ hi')
      | ok nd =>
        rw [parStep_ok f items s i nd hf]
        show Function.update s.slots i.val nd i'.val = none
        rw [Function.update_noteq hne]
        exact hnone i' (List.mem_cons_of_mem _ hi')
    rw [ih (parStep f items s i) hndr hnone' j]
    by_cases hjr : j ∈ rest
    · rw [if_pos hjr, if_pos (List.mem_cons_of_mem _ hjr)]
    · rw [if_neg hjr]
      by_cases hji : j = i
      · subst hji
        rw [if_pos (List.mem_cons_self _ _)]
        cases hf : f (items.get j) with
        | error e =>
          rw [parStep_error f items s j e hf]
          show s.slots j.val = okSlot (.error e : Except E (Option Node))
          rw [show okSlot (.error e : Except E (Option Node)) = none from rfl]
          exact hnone j (List.mem_cons_self _ _)
        | ok nd =>
          rw [parStep_ok f items s j nd hf]
          show Function.update s.slots j.val nd j.val =
            okSlot (.ok nd : Except E (Option Node))
          rw [Function.update_same]
          rfl
      · rw [if_neg (by simp [hji, hjr])]
        have hne : j.val ≠ i.val := by
          intro hv
          exact hji (Fin.val_injective hv)
        cases hf : f (items.get i) with
        | error e => rw [parStep_error f items s i e hf]
        | ok nd =>
          rw [parStep_ok f items s i nd hf]
          show Function.update s.slots i.val nd j.val = s.slots j.val
          rw [Function.update_noteq hne]

theorem parRun_err_persist {α E : Type} (f : α → Except E (Option Node))
    (items : List α) :
    ∀ (order : List (Fin items.length)) (s : ParState E) (e : E),
      s.firstErr = some e →
      (order.foldl (parStep f items) s).firstErr = some e := by
  intro order
  induction order with
  | nil => intro s e h; simpa using h
  | cons i rest ih =>
    intro s e h
    rw [List.foldl_cons]
    apply ih
    cases hf : f (items.get i) with
    | error e2 =>
      rw [parStep_error f items s i e2 hf]
      show s.firstErr.orElse (fun _ => some e2) = some e
      rw [h]
      rfl
    | ok nd =>
      rw [parStep_ok f items s i nd hf]
      exact h

theorem parRun_err_none {α E : Type} (f : α → Except E (Option Node))
    (items : List α) :
    ∀ (order : List (Fin items.length)) (s : ParState E),
      s.firstErr = none →
      (∀ i ∈ order, ∃ nd, f (items.get i) = .ok nd) →
      (order.foldl (parStep f items) s).firstErr = none := by
  intro order
  induction order with
  | nil => intro s h _; simpa using h
  | cons i rest ih =>
    intro s h hall
    rw [List.foldl_cons]
    obtain ⟨nd, hnd⟩ := hall i (List.mem_cons_self _ _)
    apply ih
    · rw [parStep_ok f items s i nd hnd]
      exact h
    · intro i' hi'
      exact hall i' (List.mem_cons_of_mem _ hi')

theorem parRun_err_of_mem {α E : Type} (f : α → Except E (Option Node))
    (items : List α) :
    ∀ (order : List (Fin items.length)) (s : ParState E),
      s.firstErr = none →
      (∃ i ∈ order, ∃ e, f (items.get i) = .error e) →
      ∃ e, (order.foldl (parStep f items) s).firstErr = some e ∧
        ∃ i ∈ order, f (items.get i) = .error e := by
  intro order
  induction order with
  | nil => intro s _ h; simp at h
  | cons i rest ih =>
    intro s h hex
    rw [List.foldl_cons]
    cases hf : f (items.get i) with
    | error e =>
      refine ⟨e, ?_, i, List.mem_cons_self _ _, hf⟩
      apply parRun_err_persist
      rw [parStep_error f items s i e hf]
      show s.firstErr.orElse (fun _ => some e) = some e
      rw [h]
      rfl
    | ok nd =>
      obtain ⟨i2, hi2, e2, he2⟩ := hex
      have hi2r : i2 ∈ rest := by
        rcases List.mem_cons.mp hi2 with rfl | hr
        · rw [hf] at he2; exact absurd he2 (by simp)
        · exact hr
      obtain ⟨e3, he3, i3, hi3, hf3⟩ :=
        ih (parStep f items s i)
          (by rw [parStep_ok f items s i nd hf]; exact h) ⟨i2, hi2r, e2, he2⟩
      exact ⟨e3, he3, i3, List.mem_cons_of_mem _ hi3, hf3⟩

theorem seqBuildChildren_ok {α E : Type} (f : α → Except E (Option Node)) :
    ∀ items : List α, (∀ x ∈ items, ∃ nd, f x = .ok nd) →
      seqBuildChildren f items =
        .ok (items.filterMap (fun x => okSlot (f x))) := by
  intro items
  induction items with
  | nil => intro _; rfl
  | cons x xs ih =>
    intro hall
    obtain ⟨nd, hnd⟩ := hall x (List.mem_cons_self _ _)
    have ihr := ih (fun y hy => hall y (List.mem_cons_of_mem _ hy))
    cases nd with
    | none =>
      rw [seqBuildChildren, hnd, ihr, List.filterMap_cons, hnd]
      rfl
    | some n =>
      rw [seqBuildChildren, hnd, ihr, List.filterMap_cons, hnd]
      rfl

theorem finRange_filterMap_get {α β : Type} (k : α → Option β) :
    ∀ items : List α,
      (List.finRange items.length).filterMap (fun i => k (items.get i)) =
        items.filterMap k := by
  intro items
  induction items with
  | nil => simp
  | cons x xs ih =>
    have h1 : List.finRange (x :: xs).length =
        (0 : Fin (xs.length + 1)) :: (List.finRange xs.length).map Fin.succ :=
      List.finRange_succ_eq_map xs.length
    rw [h1, List.filterMap_cons, List.filterMap_map]
    have h2 : ((fun i : Fin (x :: xs).length => k ((x :: xs).get i)) ∘
        Fin.succ) = fun i : Fin xs.length => k (xs.get i) := by
      funext i
      simp
    rw [h2, ih]
    rfl

/-- C4: for any per-item builder and any completion order of the
concurrent item builds (a permutation of the item indices), the parallel
sequence build produces exactly the same element node as the sequential
build — children ordered by item index, one child per (non-nil) item —
and when item builds fail, exactly one error is surfaced (a single error
among the items' errors, never an aggregate). -/
theorem claim_C4_parallel_refinement {α E : Type}
    (f : α → Except E (Option Node)) (items : List α) (tag : List Char)
    (order : List (Fin items.length))
    (hperm : order.Perm (List.finRange items.length)) :
    ((∀ x ∈ items, ∃ nd, f x = .ok nd) →
      handleSliceNodePar f items tag order =
        handleSliceNodeSeq f items tag) ∧
    (∀ g : α → Node, (∀ x ∈ items, f x = .ok (some (g x))) →
      handleSliceNodePar f items tag order =
        .ok (.element tag [] (items.map g) false)) ∧
    ((∃ x ∈ items, ∃ e, f x = .error e) →
      ∃ e, handleSliceNodePar f items tag order = .error e ∧
        ∃ x ∈ items, f x = .error e) := by
  have hmem : ∀ i : Fin items.length, i ∈ order :=
    fun i => hperm.mem_iff.mpr (List.mem_finRange i)
  have hnd : order.Nodup := hperm.nodup_iff.mpr (List.nodup_finRange _)
  have hsucc : ∀ _ : (∀ x ∈ items, ∃ nd, f x = .ok nd),
      handleSliceNodePar f items tag order =
        .ok (.element tag []
          (items.filterMap (fun x => okSlot (f x))) false) := by
    intro hall
    have hallI : ∀ i ∈ order, ∃ nd, f (items.get i) = .ok nd :=
      fun i _ => hall (items.get i) (List.get_mem items i.val i.isLt)
    have herr : (parRun f items order).firstErr = none :=
      parRun_err_none f items order ⟨fun _ => none, none⟩ rfl hallI
    have hslots := parRun_slots f items order ⟨fun _ => none, none⟩ hnd
      (fun _ _ => rfl)
    have hslots' : ∀ i : Fin items.length,
        (parRun f items order).slots i.val = okSlot (f (items.get i)) := by
      intro i
      unfold parRun
      rw [hslots i, if_pos (hmem i)]
    unfold handleSliceNodePar
    rw [herr]
    have hchildren :
        (List.range items.length).filterMap (parRun f items order).slots =
          items.filterMap (fun x => okSlot (f x)) := by
      rw [← List.map_coe_finRange items.length, List.filterMap_map]
      rw [show ((parRun f items order).slots ∘ Fin.val) =
          fun i : Fin items.length => okSlot (f (items.get i)) from
        funext fun i => hslots' i]
      exact finRange_filterMap_get (fun x => okSlot (f x)) items
    rw [hchildren]
  refine ⟨?_, ?_, ?_⟩
  · intro hall
    rw [hsucc hall]
    unfold handleSliceNodeSeq
    rw [seqBuildChildren_ok f items hall]
  · intro g hg
    have hall : ∀ x ∈ items, ∃ nd, f x = .ok nd :=
      fun x hx => ⟨some (g x), hg x hx⟩
    rw [hsucc hall]
    have : items.filterMap (fun x => okSlot (f x)) = items.map g := by
      rw [List.filterMap_congr
        (g := fun x => (some ∘ g) x)
        (fun x hx => by rw [hg x hx]; rfl)]
      rw [List.filterMap_eq_map]
    rw [this]
  · rintro ⟨x, hx, e, he⟩
    obtain ⟨j, hj⟩ := List.mem_iff_get.mp hx
    have hexI : ∃ i ∈ order, ∃ e2, f (items.get i) = .error e2 :=
      ⟨j, hmem j, e, by rw [hj]; exact he⟩
    obtain ⟨e2, he2, i2, _, hf2⟩ :=
      parRun_err_of_mem f items order ⟨fun _ => none, none⟩ rfl hexI
    refine ⟨e2, ?_, items.get i2,
      List.get_mem items i2.val i2.isLt, hf2⟩
    unfold handleSliceNodePar parRun
    rw [he2]

/-- A concrete per-item builder for the C4 witness: index value 0 fails,
everything else builds an empty text node. -/
def c4witF : Nat → Except Nat (Option Node) :=
  fun n => if n = 0 then .error 7 else .ok (some (.text []))

/-- Witness for C4 at a concrete input: two items built under a reversed
completion order still yield the sequential result, and a failing input
surfaces a single item error. -/
theorem claim_C4_parallel_refinement_witness :
    (handleSliceNodePar c4witF [1, 2] "t".data
        [⟨1, by norm_num⟩, ⟨0, by norm_num⟩] =
      handleSliceNodeSeq c4witF [1, 2] "t".data) ∧
    (∃ e, handleSliceNodePar c4witF [0, 2] "t".data
        [⟨1, by norm_num⟩, ⟨0, by norm_num⟩] = .error e ∧
      ∃ x ∈ [0, 2], c4witF x = .error e) := by
  constructor
  · exact (claim_C4_parallel_refinement c4witF [1, 2] "t".data
      [⟨1, by norm_num⟩, ⟨0, by norm_num⟩] (by decide)).1
      (by
        intro x hx
        rcases List.mem_cons.mp hx with rfl | hx2
        · exact ⟨some (.text []), rfl⟩
        · rcases List.mem_cons.mp hx2 with rfl | hx3
          · exact ⟨some (.text []), rfl⟩
          · simp at hx3)
  · exact (claim_C4_parallel_refinement c4witF [0, 2] "t".data
      [⟨1, by norm_num⟩, ⟨0, by norm_num⟩] (by decide)).2.2
      ⟨0, by simp, 7, rfl⟩

end GoXml
